import Mathlib

/-!
Shallow embedding of the page-presentation core of bloom-player
(src/bloom-player-core.tsx) together with proofs about its behaviour.

Strings are modelled by Lean `String` (a wrapper around `List Char`);
JavaScript string primitives (`lastIndexOf`, `substring`, `endsWith`,
`replace`, regular-expression search) are re-implemented faithfully on
`List Char`, including JavaScript quirks such as clamping of `substring`
indices and first-occurrence-only `replace` with a string pattern.
-/

/-- JS whitespace characters (the ones relevant to `trim`, `\s` and `\S`). -/
def jsSpaceChar (c : Char) : Bool :=
  c = ' ' || c = '\t' || c = '\n' || c = '\r' ||
  c.toNat = 0x0b || c.toNat = 0x0c || c.toNat = 0xa0 ||
  c.toNat = 0x2028 || c.toNat = 0x2029 || c.toNat = 0xfeff

/-- JS `String.prototype.trim`. -/
def jsTrim (s : String) : String :=
  String.mk (((s.toList.dropWhile jsSpaceChar).reverse.dropWhile jsSpaceChar).reverse)

/-- Prefix test on character lists (JS `startsWith`, also the building
block of the index searches). -/
def isPfx : List Char → List Char → Bool
  | [], _ => true
  | _ :: _, [] => false
  | a :: as, b :: bs => if a = b then isPfx as bs else false

/-- JS `String.prototype.endsWith` on character lists. -/
def listEndsWith (s p : List Char) : Bool :=
  if p.length ≤ s.length then decide (s.drop (s.length - p.length) = p) else false

/-- JS `String.prototype.endsWith`. -/
def jsEndsWith (s p : String) : Bool :=
  listEndsWith s.toList p.toList

/-- JS `String.prototype.startsWith`. -/
def jsStartsWith (s p : String) : Bool :=
  isPfx p.toList s.toList

/-- Index of the first occurrence of `pat` in a character list (JS `indexOf`). -/
def firstIdxChars (pat : List Char) : List Char → Option Nat
  | [] => if isPfx pat ([] : List Char) then some 0 else none
  | c :: t => if isPfx pat (c :: t) then some 0 else (firstIdxChars pat t).map (· + 1)

/-- Index of the last occurrence of `pat` in a character list (JS `lastIndexOf`). -/
def lastIdxChars (pat : List Char) : List Char → Option Nat
  | [] => if isPfx pat ([] : List Char) then some 0 else none
  | c :: t =>
    match lastIdxChars pat t with
    | some j => some (j + 1)
    | none => if isPfx pat (c :: t) then some 0 else none

/-- JS `lastIndexOf` on strings, as an optional index. -/
def lastIndexOfStr (s pat : String) : Option Nat :=
  lastIdxChars pat.toList s.toList

/-- Convert an optional index to the JS convention (−1 when absent). -/
def jsIdx : Option Nat → Int
  | some i => (i : Int)
  | none => -1

/-- JS `substring(i)` (characters from clamped index `i` to the end). -/
def strDropInt (s : String) (i : Int) : String :=
  String.mk (s.toList.drop i.toNat)

/-- JS `substring(0, i)` (characters before clamped index `i`). -/
def strTakeInt (s : String) (i : Int) : String :=
  String.mk (s.toList.take i.toNat)

/-- True when `pat` occurs in `s` (JS `indexOf(pat) >= 0`). -/
def strContainsSub (s pat : String) : Bool :=
  (firstIdxChars pat.toList s.toList).isSome

/-- JS `replace` with a plain-string pattern: replace the first occurrence only. -/
def replaceFirstChars (s pat rep : List Char) : List Char :=
  match firstIdxChars pat s with
  | none => s
  | some i => s.take i ++ rep ++ s.drop (i + pat.length)

/-- JS `replace` with a plain-string pattern, on strings. -/
def replaceFirstStr (s pat rep : String) : String :=
  String.mk (replaceFirstChars s.toList pat.toList rep.toList)

/-!
URL handling (`preprocessUrl` and the book-URL derivation in
`componentDidUpdate`, bloom-player-core.tsx lines 260-287 and 579-601).
-/

/-- The two stripping steps of `preprocessUrl`: remove one trailing `/`,
then one trailing (lowercase) `%2f`. -/
def normalizeUrlSlashes (url : String) : String :=
  let u1 := if jsEndsWith url "/" then strTakeInt url ((url.length : Int) - 1) else url
  if jsEndsWith u1 "%2f" then strTakeInt u1 ((u1.length : Int) - 3) else u1

/-- `preprocessUrl` from bloom-player-core.tsx: reject an empty url, keep the
sentinel `working` as the empty string, and strip trailing slashes. -/
def preprocessUrl (url : String) : Except String String :=
  if jsTrim url = "" then
    Except.error "The url parameter was empty. It should point to the url of a book."
  else if url = "working" then Except.ok ""
  else Except.ok (normalizeUrlSlashes url)

/-- The `filename` local of `componentDidUpdate`: text after the later of the
last `/` and the last `%2f` (three characters past the start of the latter). -/
def deriveFilename (u : String) : String :=
  let si := jsIdx (lastIndexOfStr u "/")
  let ei := jsIdx (lastIndexOfStr u "%2f")
  if si > ei then strDropInt u (si + 1) else strDropInt u (ei + 3)

/-- The `haveFullPath` local of `componentDidUpdate`. -/
def haveFullPath (u : String) : Bool :=
  jsEndsWith (deriveFilename u) ".htm"

/-- The `urlOfBookHtmlFile` local of `componentDidUpdate`. -/
def urlOfBookHtmlFile (u : String) : String :=
  if haveFullPath u then u else u ++ "/" ++ deriveFilename u ++ ".htm"

/-- The `urlPrefix` field set by `componentDidUpdate`: the folder every other
per-book resource is resolved against. -/
def urlFolder (u : String) : String :=
  if haveFullPath u then
    strTakeInt u (max (jsIdx (lastIndexOfStr u "/")) (jsIdx (lastIndexOfStr u "%2f")))
  else u

/-- `fullUrl` from bloom-player-core.tsx: resolve a book-relative reference. -/
def fullUrl (pfx url : String) : String :=
  pfx ++ "/" ++ url

/-!
DOM class lists. A `classList` is modelled as the list of class tokens of an
element; `classList.add` appends a token when absent, `classList.remove`
deletes every copy of a token, and `classList.contains` is token membership.
-/

/-- `classList.contains` (also used for JS `Array.prototype.includes`). -/
def hasClass : List String → String → Bool
  | [], _ => false
  | c :: r, t => if c = t then true else hasClass r t

/-- `classList.add`. -/
def classAdd (l : List String) (t : String) : List String :=
  if hasClass l t then l else l ++ [t]

/-- `classList.remove`. -/
def classRemove : List String → String → List String
  | [], _ => []
  | c :: r, t => if c = t then classRemove r t else c :: classRemove r t

/-!
Language visibility (`updateDivVisibilityByLangCode` and
`shouldNormallyShowEditable`, bloom-player-core.tsx lines 621-763).
A translation-group child is modelled by its `lang` attribute (absent or a
string) and its class list; a group by its `data-default-languages`
attribute and its children.
-/

/-- A child of a `bloom-translationGroup` div. Children that are not
editables simply lack the `bloom-editable` class. -/
structure Editable where
  lang : Option String
  classes : List String
deriving DecidableEq, Repr

/-- A `bloom-translationGroup` div. -/
structure TranslationGroup where
  dataDefaultLanguages : Option String
  children : List Editable
deriving DecidableEq, Repr

/-- JS `split(/,| /)` on character lists: split at every comma or space,
keeping empty pieces. -/
def splitCharsAux : List Char → List (List Char)
  | [] => [[]]
  | c :: t =>
    let r := splitCharsAux t
    if c = ',' || c = ' ' then [] :: r
    else
      match r with
      | [] => [[c]]
      | h :: t2 => (c :: h) :: t2

/-- The `data-default-languages` token list: JS `attr ? attr.split(/,| /) : []`
(an absent or empty attribute is falsy and yields the empty list). -/
def splitDefaultLangs : Option String → List String
  | none => []
  | some s => if s = "" then [] else (splitCharsAux s.toList).map String.mk

/-- Case-insensitive (ASCII) character comparison. -/
def charEqIgnoreCase (a b : Char) : Bool :=
  a = b ||
  (a.toNat + 32 = b.toNat && 65 ≤ a.toNat && a.toNat ≤ 90) ||
  (b.toNat + 32 = a.toNat && 65 ≤ b.toNat && b.toNat ≤ 90)

/-- Case-insensitive comparison of character lists. -/
def charsEqIgnoreCase : List Char → List Char → Bool
  | [], [] => true
  | a :: x, b :: y => charEqIgnoreCase a b && charsEqIgnoreCase x y
  | _, _ => false

/-- `areStringsEqualInvariantCultureIgnoreCase` (accent-sensitive,
case-insensitive comparison). -/
def eqInvariantIgnoreCase (a b : String) : Bool :=
  charsEqIgnoreCase a.toList b.toList

/-- `shouldNormallyShowEditable` from bloom-player-core.tsx: whether the
editable with language `lang` and class list `classes` is visible, given the
group's `data-default-languages` tokens and the active (vernacular) code. -/
def shouldNormallyShowEditable (lang : String) (dataDefaultLanguages : List String)
    (settingsLang1 : String) (classes : List String) : Bool :=
  let matchesContent2 := hasClass classes "bloom-content2"
  let matchesContent3 := hasClass classes "bloom-content3"
  match dataDefaultLanguages with
  | [] => decide (lang = settingsLang1) || matchesContent2 || matchesContent3
  | first :: _ =>
    if first = "" || eqInvariantIgnoreCase first "auto" then
      decide (lang = settingsLang1) || matchesContent2 || matchesContent3
    else
      (decide (lang = settingsLang1) && hasClass dataDefaultLanguages "V") ||
      (decide (lang = settingsLang1) && hasClass dataDefaultLanguages "L1") ||
      (hasClass classes "bloom-contentNational1" && hasClass dataDefaultLanguages "N1") ||
      (hasClass classes "bloom-contentNational1" && hasClass dataDefaultLanguages "L2") ||
      (hasClass classes "bloom-contentNational2" && hasClass dataDefaultLanguages "N2") ||
      (hasClass classes "bloom-contentNational2" && hasClass dataDefaultLanguages "L3") ||
      hasClass dataDefaultLanguages lang

/-- The visibility toggle of the inner loop of
`updateDivVisibilityByLangCode`: add `bloom-visibility-code-on` and remove
`bloom-visibility-code-off` when the editable should show, else remove
`bloom-visibility-code-on`. -/
def visStep (shouldShow : Bool) (l : List String) : List String :=
  if shouldShow then classRemove (classAdd l "bloom-visibility-code-on") "bloom-visibility-code-off"
  else classRemove l "bloom-visibility-code-on"

/-- The `bloom-content1` toggle of the inner loop: add the class when the
child's `lang` attribute equals the active code, else remove it. -/
def content1Step (isVernacular : Bool) (l : List String) : List String :=
  if isVernacular then classAdd l "bloom-content1" else classRemove l "bloom-content1"

/-- The per-child body of the inner loop of `updateDivVisibilityByLangCode`:
skip non-editables, toggle the visibility classes according to
`shouldNormallyShowEditable`, and toggle `bloom-content1` according to
whether the child's `lang` attribute equals the active code. -/
def updateEditable (langVernacular : String) (dataDefaultLangs : List String)
    (e : Editable) : Editable :=
  if hasClass e.classes "bloom-editable" = false then e
  else
    let shouldShow :=
      shouldNormallyShowEditable (e.lang.getD "") dataDefaultLangs langVernacular e.classes
    { e with classes := content1Step (decide (e.lang = some langVernacular)) (visStep shouldShow e.classes) }

/-- The per-group body of `updateDivVisibilityByLangCode`. -/
def updateGroup (langVernacular : String) (g : TranslationGroup) : TranslationGroup :=
  let f := updateEditable langVernacular (splitDefaultLangs g.dataDefaultLanguages)
  { g with children := g.children.map f }

/-- `updateDivVisibilityByLangCode`: a book is the list of its translation
groups; an empty active language code makes the method return early. -/
def updateDivVisibilityByLangCode (activeLanguageCode : String)
    (doc : List TranslationGroup) : List TranslationGroup :=
  if activeLanguageCode = "" then doc
  else doc.map (updateGroup activeLanguageCode)

/-!
Loading-error handling (`HandleLoadingError` and `htmlEncode`,
bloom-player-core.tsx lines 388-415 and 1458-1462).
-/

/-- The parts of an axios error consulted by `HandleLoadingError`: its
message and the request URL of its config, when present. -/
structure AxiosErrorInfo where
  message : String
  configUrl : Option String
deriving DecidableEq, Repr

/-- The component state fields written by `HandleLoadingError`. -/
structure LoadErrorState where
  isLoading : Bool
  loadFailed : Bool
  loadErrorHtml : String
deriving DecidableEq, Repr

/-- One character of `htmlEncode`'s regex replacement: characters in
U+00A0..U+9999 and `<`, `>`, `&` become numeric character references. -/
def encodeChar (c : Char) : String :=
  if (0xa0 ≤ c.toNat && c.toNat ≤ 0x9999) || c = '<' || c = '>' || c = '&' then
    "&#" ++ toString c.toNat ++ ";"
  else String.singleton c

/-- `htmlEncode` from bloom-player-core.tsx: decode the first `%23` back to
`#`, then replace every special character by a numeric reference. -/
def htmlEncode (str : String) : String :=
  String.join (((replaceFirstStr str "%23" "#").toList).map encodeChar)

/-- `HandleLoadingError`: always fail the load; a `file://` request URL or a
message mentioning 404 produces the book-not-found message (with the
HTML-encoded URL when available), anything else the generic message. -/
def handleLoadingError (e : AxiosErrorInfo) : LoadErrorState :=
  let msg0 := "<p>There was a problem displaying this book: " ++ e.message ++ "<p>"
  let localFileMissing :=
    match e.configUrl with
    | some u => jsStartsWith u "file://"
    | none => false
  let msg :=
    if localFileMissing || strContainsSub e.message "404" then
      let m := "<p>This book (or some part of it) was not found.<p>"
      match e.configUrl with
      | some u => m ++ "<p class='errorDetails'>" ++ htmlEncode u ++ "</p>"
      | none => m
    else msg0
  ⟨false, true, msg⟩

/-!
Page size classes (`getPageSizeClass` / `setPageSizeClass`,
bloom-player-core.tsx lines 822-864). A page is modelled by its class-token
list; the `class` attribute string is their space-separated join, and
`getPageSizeClass` runs the regex `\b\S*?(Portrait|Landscape)\b` over it.
-/

/-- JS regex word characters (`\w`, hence also `\b` boundaries). -/
def wordChar (c : Char) : Bool :=
  ('a' ≤ c && c ≤ 'z') || ('A' ≤ c && c ≤ 'Z') || ('0' ≤ c && c ≤ '9') || c = '_'

/-- Match `(Portrait|Landscape)\b` at the head of `s`; `s` starts right after
the lazily matched `\S*?` part, so the trailing boundary holds exactly when
the next character is absent or not a word character. Returns the length of
the keyword consumed. -/
def kwEnd (s : List Char) : Option Nat :=
  if isPfx "Portrait".toList s then
    match (s.drop 8).head? with
    | some c => if wordChar c then none else some 8
    | none => some 8
  else if isPfx "Landscape".toList s then
    match (s.drop 9).head? with
    | some c => if wordChar c then none else some 9
    | none => some 9
  else none

/-- Lazy `\S*?(Portrait|Landscape)\b` from this position: extend the `\S*?`
part one (non-whitespace) character at a time, preferring the shortest
extension, and return the total length matched. -/
def lazyFind : List Char → Option Nat
  | [] => kwEnd []
  | c :: t =>
    match kwEnd (c :: t) with
    | some e => some e
    | none => if jsSpaceChar c then none else (lazyFind t).map (· + 1)

/-- Leftmost match of `\b\S*?(Portrait|Landscape)\b`: try every start
position in order, requiring a word boundary there (`prevIsWord` tracks
whether the previous character was a word character). Returns the matched
substring. -/
def scanStarts (prevIsWord : Bool) (s : List Char) : Option (List Char) :=
  let headIsWord :=
    match s.head? with
    | some c => wordChar c
    | none => false
  if prevIsWord != headIsWord then
    match lazyFind s with
    | some n => some (s.take n)
    | none =>
      match s with
      | [] => none
      | c :: t => scanStarts (wordChar c) t
  else
    match s with
    | [] => none
    | c :: t => scanStarts (wordChar c) t

/-- Space-separated join of class tokens (the `class` attribute string). -/
def classAttr (classes : List String) : String :=
  String.intercalate " " classes

/-- `getPageSizeClass`: first match of `\b\S*?(Portrait|Landscape)\b` in the
page's class attribute, or the empty string. -/
def getPageSizeClass (classes : List String) : String :=
  match scanStarts false (classAttr classes).toList with
  | some m => String.mk m
  | none => ""

/-- The `desiredClass` computation of `setPageSizeClass` (JS `replace` with a
string pattern rewrites only the first occurrence). -/
def desiredSizeClass (landscape useOriginalPageSize : Bool) (originalPageClass : String) : String :=
  if useOriginalPageSize then
    if landscape then replaceFirstStr originalPageClass "Portrait" "Landscape"
    else replaceFirstStr originalPageClass "Landscape" "Portrait"
  else
    if landscape then "Device16x9Landscape" else "Device16x9Portrait"

/-- `setPageSizeClass`: force the page's size class to one of the device
classes (or a variant of the original class) and report whether the page is
shown landscape. Returns the flag and the updated class list. -/
def setPageSizeClass (classes : List String) (bookCanRotate showLandscape useOriginalPageSize : Bool)
    (originalPageClass : String) : Bool × List String :=
  let sizeClass := getPageSizeClass classes
  if sizeClass = "" then (false, classes)
  else
    let landscape := if bookCanRotate then showLandscape else jsEndsWith sizeClass "Landscape"
    let desired := desiredSizeClass landscape useOriginalPageSize originalPageClass
    if sizeClass ≠ desired then (landscape, classAdd (classRemove classes sizeClass) desired)
    else (landscape, classes)

/-!
Relative-URL fixing (`fixRelativeUrls`, bloom-player-core.tsx lines 876-927).
An element is modelled by the attributes the pass consults or writes.
The regex `background-image:url\(['"](.*)['"]\)` is implemented with JS
semantics: leftmost match, greedy `.*` (which never matches a line
terminator), and `exec`/non-global `replace` acting on the first match.
-/

/-- JS regex line terminators (which `.` does not match). -/
def lineTerm (c : Char) : Bool :=
  c = '\n' || c = '\r' || c.toNat = 0x2028 || c.toNat = 0x2029

/-- Is this character a single or double quote? -/
def quoteChar (c : Char) : Bool :=
  c = '\'' || c = '"'

/-- Greedy `(.*)['"]\)` from this position: prefer consuming a character into
`.*` (when it is not a line terminator), falling back to closing with a quote
and `)`. Returns the consumed length and the group-1 characters. -/
def bgTailGo : List Char → Option (Nat × List Char)
  | [] => none
  | c :: t =>
    let viaStar : Option (Nat × List Char) :=
      if lineTerm c then none
      else (bgTailGo t).map (fun p => (p.1 + 1, c :: p.2))
    let close : Option (Nat × List Char) :=
      match c :: t with
      | q :: ')' :: _ => if quoteChar q then some (2, []) else none
      | _ => none
    viaStar <|> close

/-- Match `background-image:url\(['"](.*)['"]\)` at the head of `s`;
returns the total length and the group-1 characters. -/
def bgMatchHere (s : List Char) : Option (Nat × List Char) :=
  if isPfx "background-image:url(".toList s then
    match s.drop 21 with
    | q :: t =>
      if quoteChar q then (bgTailGo t).map (fun p => (21 + 1 + p.1, p.2))
      else none
    | [] => none
  else none

/-- Leftmost match of the background-image regex: position, length, group 1. -/
def bgScan : List Char → Option (Nat × Nat × List Char)
  | [] => (bgMatchHere []).map (fun p => (0, p.1, p.2))
  | c :: t =>
    match bgMatchHere (c :: t) with
    | some p => some (0, p.1, p.2)
    | none => (bgScan t).map (fun p => (p.1 + 1, p.2.1, p.2.2))

/-- The attributes of a page element read or written by `fixRelativeUrls`. -/
structure PageElement where
  src : Option String
  style : Option String
  classes : List String
  dataBackground : Option String
deriving DecidableEq, Repr

/-- The first pass of `fixRelativeUrls`: every element with a `src`
attribute gets it resolved against the book folder. -/
def fixSrc (pfx : String) (e : PageElement) : PageElement :=
  match e.src with
  | none => e
  | some s => { e with src := some (fullUrl pfx s) }

/-- The second pass of `fixRelativeUrls`: on elements whose `style` matches
the background-image regex, delete the matched declaration from the style,
store the resolved URL in `data-background`, and add the `swiper-lazy`
class. -/
def fixBg (pfx : String) (e : PageElement) : PageElement :=
  match e.style with
  | none => e
  | some st =>
    match bgScan st.toList with
    | none => e
    | some (i, n, g) =>
      { e with
        style := some (String.mk (st.toList.take i ++ st.toList.drop (i + n)))
        dataBackground := some (fullUrl pfx (String.mk g))
        classes := classAdd e.classes "swiper-lazy" }

/-- `fixRelativeUrls`: the `src` pass over all elements of a page, then the
background-image pass. -/
def fixRelativeUrls (pfx : String) (page : List PageElement) : List PageElement :=
  (page.map (fixSrc pfx)).map (fixBg pfx)

/-!
Stylesheet assembly (`assembleStyleSheets` and `makeFontStylesheet`,
bloom-player-core.tsx lines 948-1051). Fetching is modelled by an oracle
from URLs to `Option String` (`none` = the request fails); the
`src:url(...)` rewriting of `makeFontStylesheet` implements the global regex
`src:url\(['"]?(.*\.[^\)'"]*)['"]?\)` with JS backtracking semantics.
-/

/-- The closing part `[^\)'"]*['"]?\)` after the group's final `.`: the
character class is matched greedily (its run is unique since it can contain
neither quotes nor `)`), then an optional quote, then `)`. Returns the
consumed length and the class-run characters. -/
def fontClose (t : List Char) : Option (Nat × List Char) :=
  let b := t.takeWhile (fun c => !(c = ')' || quoteChar c))
  match t.drop b.length with
  | ')' :: _ => some (b.length + 1, b)
  | q :: ')' :: _ => if quoteChar q then some (b.length + 2, b) else none
  | _ => none

/-- Greedy `(.*\.[^\)'"]*)['"]?\)` from this position: prefer consuming a
character into `.*`, falling back to matching the literal `.` here.
Returns the consumed length and the group-1 characters. -/
def fontTailGo : List Char → Option (Nat × List Char)
  | [] => none
  | c :: t =>
    let viaStar : Option (Nat × List Char) :=
      if lineTerm c then none
      else (fontTailGo t).map (fun p => (p.1 + 1, c :: p.2))
    let viaDot : Option (Nat × List Char) :=
      if c = '.' then
        (fontClose t).map (fun p => (1 + p.1, '.' :: p.2))
      else none
    viaStar <|> viaDot

/-- Match `src:url\(['"]?(.*\.[^\)'"]*)['"]?\)` at the head of `s`; the
leading optional quote is tried greedily first. Returns the total length
and the group-1 characters. -/
def fontMatchHere (s : List Char) : Option (Nat × List Char) :=
  if isPfx "src:url(".toList s then
    let r := s.drop 8
    let noQuote : Option (Nat × List Char) := (fontTailGo r).map (fun p => (8 + p.1, p.2))
    match r with
    | q :: t =>
      if quoteChar q then
        match fontTailGo t with
        | some p => some (8 + 1 + p.1, p.2)
        | none => noQuote
      else noQuote
    | [] => noQuote
  else none

/-- Leftmost match of the font-src regex: position, length, group 1. -/
def fontScan : List Char → Option (Nat × Nat × List Char)
  | [] => (fontMatchHere []).map (fun p => (0, p.1, p.2))
  | c :: t =>
    match fontMatchHere (c :: t) with
    | some p => some (0, p.1, p.2)
    | none => (fontScan t).map (fun p => (p.1 + 1, p.2.1, p.2.2))

/-- Global replacement of `src:url(...)` references by folder-absolute ones,
continuing after each replaced match (fuel bounds the number of matches). -/
def fontReplaceAll (pfx : String) : Nat → List Char → List Char
  | 0, s => s
  | fuel + 1, s =>
    match fontScan s with
    | none => s
    | some (i, n, g) =>
      s.take i ++ ("src:url('" ++ pfx ++ "/").toList ++ g ++ "')".toList ++
        fontReplaceAll pfx fuel (s.drop (i + n))

/-- The `innerText` rewriting of `makeFontStylesheet`, with the folder
already extracted from the stylesheet URL. -/
def jsFontRewrite (pfx : String) (css : String) : String :=
  String.mk (fontReplaceAll pfx css.toList.length css.toList)

/-- The content `makeFontStylesheet` installs in the document head for a
fetched `fonts.css` (its folder is the URL minus the `/fonts.css` tail). -/
def makeFontStylesheet (href : String) (data : String) : String :=
  jsFontRewrite (strTakeInt href ((href.length : Int) - 10)) data

/-- The link loop of `assembleStyleSheets`: resolve each `href`, divert the
ones ending in `/fonts.css` to `makeFontStylesheet`, and fetch the rest in
document order. Returns the fetch results and the diverted font URLs. -/
def collectLinks (pfx : String) (fetch : String → Option String) : List String → List (Option String) × List String
  | [] => ([], [])
  | href :: rest =>
    let fh := fullUrl pfx href
    let (ps, fs) := collectLinks pfx fetch rest
    if jsEndsWith fh "/fonts.css" then (ps, fh :: fs)
    else (fetch fh :: ps, fs)

/-- The outcome of `assembleStyleSheets`: the combined stylesheet string,
the rewritten contents installed in the head for `fonts.css` links, and the
loading flag cleared by the final `setState`. -/
structure AssembleResult where
  combined : String
  fontSheets : List String
  isLoading : Bool
deriving DecidableEq, Repr

/-- `assembleStyleSheets`: embedded `<style>` contents (document order)
followed by the data of every fetched stylesheet, a failed fetch
contributing nothing; `quizCss` is the optional legacy-quiz stylesheet
promise appended after the links. -/
def assembleStyleSheets (pfx : String) (fetch : String → Option String)
    (embedded : List String) (links : List String) (quizCss : Option String) : AssembleResult :=
  let (linkResults, fontHrefs) := collectLinks pfx fetch links
  let results := linkResults ++ (match quizCss with | some q => [some q] | none => [])
  let combined := String.join embedded ++ String.join (results.filterMap id)
  let fontSheets := fontHrefs.filterMap (fun h => (fetch h).map (makeFontStylesheet h))
  ⟨combined, fontSheets, false⟩

/-!
Rendering (`render`, bloom-player-core.tsx lines 1066-1243) and the index
update of `setIndex` (lines 1279-1295). Only the state fields the claims
consult are modelled; a slide is `none` when it renders as the empty
placeholder and `some (styleRules, markup)` when it carries real content.
-/

/-- The component state fields consulted by `render`. -/
structure PlayerState where
  pages : List String
  styleRules : String
  isLoading : Bool
  loadFailed : Bool
  loadErrorHtml : String
  currentSwiperIndex : Nat
deriving DecidableEq, Repr

/-- What `render` produces: a loading spinner, the error display, or the
swiper slide list. -/
inductive RenderResult where
  | loading : RenderResult
  | failed : String → RenderResult
  | carousel : List (Option (String × String)) → RenderResult
deriving DecidableEq, Repr

/-- The slide list: the page at position `i` (counting from `i0`) is
materialized iff `|i - currentSwiperIndex| < 2` (JS `Math.abs`). -/
def renderSlidesAux (styleRules : String) (idx : Int) : Int → List String → List (Option (String × String))
  | _, [] => []
  | i, p :: rest =>
    (if (i - idx).natAbs < 2 then some (styleRules, p) else none) ::
      renderSlidesAux styleRules idx (i + 1) rest

/-- The slide list rendered for a state. -/
def renderSlides (s : PlayerState) : List (Option (String × String)) :=
  renderSlidesAux s.styleRules (s.currentSwiperIndex : Int) 0 s.pages

/-- `render`: loading and failure short-circuit before any page content. -/
def renderCore (s : PlayerState) : RenderResult :=
  if s.isLoading then RenderResult.loading
  else if s.loadFailed then RenderResult.failed s.loadErrorHtml
  else RenderResult.carousel (renderSlides s)

/-- The state change `setIndex` performs (`setState currentSwiperIndex`). -/
def setIndexState (s : PlayerState) (index : Nat) : PlayerState :=
  { s with currentSwiperIndex := index }

/-!
Media-duration analytics (`storeAudioAnalytics` / `storeVideoAnalytics`,
bloom-player-core.tsx lines 1397-1437). JS numbers are modelled as either
NaN or an exact rational; `<` is false whenever either side is NaN, and NaN
is absorbing for addition.
-/

/-- A JS number: NaN or a (rational) value. -/
inductive JsNum where
  | nan : JsNum
  | val : ℚ → JsNum
deriving DecidableEq, Repr

/-- JS `<` (false when either operand is NaN). -/
def jsLt : JsNum → JsNum → Bool
  | JsNum.nan, _ => false
  | _, JsNum.nan => false
  | JsNum.val a, JsNum.val b => a < b

/-- JS `+` on numbers. -/
def jsAdd : JsNum → JsNum → JsNum
  | JsNum.nan, _ => JsNum.nan
  | _, JsNum.nan => JsNum.nan
  | JsNum.val a, JsNum.val b => JsNum.val (a + b)

/-- JS `Number.isNaN`. -/
def jsIsNaN : JsNum → Bool
  | JsNum.nan => true
  | JsNum.val _ => false

/-- The effect of `storeAudioAnalytics` on `totalAudioDuration`: durations
below 0.001 and NaN are ignored, anything else is accumulated. -/
def storeAudioAnalytics (totalAudioDuration duration : JsNum) : JsNum :=
  if jsLt duration (JsNum.val (1 / 1000)) || jsIsNaN duration then totalAudioDuration
  else jsAdd totalAudioDuration duration

/-- The effect of `storeVideoAnalytics` on `totalVideoDuration`: durations
below 0.001 are ignored (a NaN comparison is false, so NaN is accumulated). -/
def storeVideoAnalytics (totalVideoDuration duration : JsNum) : JsNum :=
  if jsLt duration (JsNum.val (1 / 1000)) then totalVideoDuration
  else jsAdd totalVideoDuration duration

/-- Specification-side predicate: the `data-default-languages` token list
counts as unspecified/`auto` (empty, first token empty, or first token
`auto` up to case). -/
def defaultLangsIsAuto : List String → Bool
  | [] => true
  | first :: _ => first = "" || eqInvariantIgnoreCase first "auto"

/-!
Lemmas about class lists.
-/

theorem hasClass_append (l₁ l₂ : List String) (t : String) :
    hasClass (l₁ ++ l₂) t = (hasClass l₁ t || hasClass l₂ t) := by
  induction l₁ with
  | nil => simp [hasClass]
  | cons c r ih =>
    by_cases h : c = t <;> simp [hasClass, h, ih]

theorem hasClass_classAdd_self (l : List String) (t : String) :
    hasClass (classAdd l t) t = true := by
  unfold classAdd
  by_cases h : hasClass l t <;> simp [h, hasClass_append, hasClass]

theorem hasClass_classRemove_self (l : List String) (t : String) :
    hasClass (classRemove l t) t = false := by
  induction l with
  | nil => simp [classRemove, hasClass]
  | cons c r ih =>
    by_cases h : c = t <;> simp [classRemove, hasClass, h, ih]

theorem hasClass_classAdd_ne (l : List String) {a t : String} (h : a ≠ t) :
    hasClass (classAdd l t) a = hasClass l a := by
  unfold classAdd
  by_cases hm : hasClass l t <;> simp [hm, hasClass_append, hasClass, Ne.symm h]

theorem hasClass_classRemove_ne (l : List String) {a t : String} (h : a ≠ t) :
    hasClass (classRemove l t) a = hasClass l a := by
  induction l with
  | nil => simp [classRemove]
  | cons c r ih =>
    by_cases hc : c = t
    · subst hc
      simp [classRemove, hasClass, Ne.symm h, ih]
    · by_cases ha : c = a <;> simp [classRemove, hasClass, hc, ha, ih, h]

theorem classAdd_of_mem {l : List String} {t : String} (h : hasClass l t = true) :
    classAdd l t = l := by
  simp [classAdd, h]

theorem classRemove_of_not_mem : ∀ {l : List String} {t : String},
    hasClass l t = false → classRemove l t = l := by
  intro l t h
  induction l with
  | nil => rfl
  | cons c r ih =>
    by_cases hc : c = t
    · simp [hasClass, hc] at h
    · simp [hasClass, hc] at h
      simp [classRemove, hc, ih h]

/-- C1: the visibility decision shows an editable iff, for an
unspecified/`auto` default-language list, its language is the active code or
it is secondary/tertiary content, and otherwise iff one of the four
default-language conditions holds; the primary-content marker
`bloom-content1` ends up on an editable iff its `lang` equals the active
code; and in the en/fr scenario with `data-default-languages="V"` and active
language `fr`, the `fr` child gets the visibility and primary classes and
the `en` child neither. -/
theorem c1_language_visibility :
    (∀ (lang : String) (dataDefaultLanguages : List String) (activeCode : String)
        (classes : List String),
      shouldNormallyShowEditable lang dataDefaultLanguages activeCode classes = true ↔
        (if defaultLangsIsAuto dataDefaultLanguages then
          lang = activeCode ∨ hasClass classes "bloom-content2" = true ∨
            hasClass classes "bloom-content3" = true
        else
          (lang = activeCode ∧ (hasClass dataDefaultLanguages "V" = true ∨
            hasClass dataDefaultLanguages "L1" = true)) ∨
          (hasClass classes "bloom-contentNational1" = true ∧
            (hasClass dataDefaultLanguages "N1" = true ∨ hasClass dataDefaultLanguages "L2" = true)) ∨
          (hasClass classes "bloom-contentNational2" = true ∧
            (hasClass dataDefaultLanguages "N2" = true ∨ hasClass dataDefaultLanguages "L3" = true)) ∨
          hasClass dataDefaultLanguages lang = true)) ∧
    (∀ (activeCode : String) (dataDefaultLangs : List String) (e : Editable),
      hasClass e.classes "bloom-editable" = true →
      (hasClass (updateEditable activeCode dataDefaultLangs e).classes "bloom-content1" = true ↔
        e.lang = some activeCode)) ∧
    (updateDivVisibilityByLangCode "fr"
        [⟨some "V", [⟨some "en", ["bloom-editable"]⟩, ⟨some "fr", ["bloom-editable"]⟩]⟩]
      = [⟨some "V", [⟨some "en", ["bloom-editable"]⟩,
          ⟨some "fr", ["bloom-editable", "bloom-visibility-code-on", "bloom-content1"]⟩]⟩]) := by
  refine ⟨?_, ?_, by decide⟩
  · intro lang D c cls
    cases D with
    | nil =>
      simp [shouldNormallyShowEditable, defaultLangsIsAuto]
      tauto
    | cons first rest =>
      by_cases hf : (first = "" || eqInvariantIgnoreCase first "auto") = true
      · simp [shouldNormallyShowEditable, defaultLangsIsAuto, hf]
        tauto
      · simp [shouldNormallyShowEditable, defaultLangsIsAuto, hf]
        tauto
  · intro c D e he
    unfold updateEditable
    simp [he, content1Step]
    by_cases hl : e.lang = some c
    · simp [hl, hasClass_classAdd_self]
    · simp [hl, hasClass_classRemove_self]

/-- Witness for C1 at a concrete editable: the `fr` child with
`data-default-languages="V"` and active code `fr` carries `bloom-content1`
after the rewrite. -/
theorem c1_language_visibility_witness :
    hasClass (Editable.mk (some "fr") ["bloom-editable"]).classes "bloom-editable" = true ∧
    (hasClass (updateEditable "fr" ["V"] (Editable.mk (some "fr") ["bloom-editable"])).classes
        "bloom-content1" = true ↔
      (Editable.mk (some "fr") ["bloom-editable"]).lang = some "fr") :=
  ⟨by decide, c1_language_visibility.2.1 "fr" ["V"] (Editable.mk (some "fr") ["bloom-editable"]) (by decide)⟩

/-- Tokens other than the two visibility classes are untouched by `visStep`. -/
theorem hasClass_visStep_ne (s : Bool) (l : List String) {t : String}
    (h1 : t ≠ "bloom-visibility-code-on") (h2 : t ≠ "bloom-visibility-code-off") :
    hasClass (visStep s l) t = hasClass l t := by
  cases s <;>
    simp [visStep, hasClass_classRemove_ne _ h1, hasClass_classRemove_ne _ h2,
      hasClass_classAdd_ne _ h1]

/-- Tokens other than `bloom-content1` are untouched by `content1Step`. -/
theorem hasClass_content1Step_ne (v : Bool) (l : List String) {t : String}
    (h : t ≠ "bloom-content1") :
    hasClass (content1Step v l) t = hasClass l t := by
  cases v <;>
    simp [content1Step, hasClass_classRemove_ne _ h, hasClass_classAdd_ne _ h]

/-- Applying `visStep` again after a full class update is a no-op. -/
theorem visStep_after (s v : Bool) (l : List String) :
    visStep s (content1Step v (visStep s l)) = content1Step v (visStep s l) := by
  cases s with
  | true =>
    have hon : hasClass (content1Step v (visStep true l)) "bloom-visibility-code-on" = true := by
      rw [hasClass_content1Step_ne v _ (by decide)]
      show hasClass (classRemove (classAdd l "bloom-visibility-code-on") "bloom-visibility-code-off")
          "bloom-visibility-code-on" = true
      rw [hasClass_classRemove_ne _ (by decide : "bloom-visibility-code-on" ≠ "bloom-visibility-code-off")]
      exact hasClass_classAdd_self l _
    have hoff : hasClass (content1Step v (visStep true l)) "bloom-visibility-code-off" = false := by
      rw [hasClass_content1Step_ne v _ (by decide)]
      exact hasClass_classRemove_self _ _
    show classRemove (classAdd (content1Step v (visStep true l)) "bloom-visibility-code-on")
        "bloom-visibility-code-off" = content1Step v (visStep true l)
    rw [classAdd_of_mem hon, classRemove_of_not_mem hoff]
  | false =>
    have hon : hasClass (content1Step v (visStep false l)) "bloom-visibility-code-on" = false := by
      rw [hasClass_content1Step_ne v _ (by decide)]
      exact hasClass_classRemove_self _ _
    show classRemove (content1Step v (visStep false l)) "bloom-visibility-code-on"
        = content1Step v (visStep false l)
    exact classRemove_of_not_mem hon

/-- `content1Step` is idempotent. -/
theorem content1Step_idem (v : Bool) (l : List String) :
    content1Step v (content1Step v l) = content1Step v l := by
  cases v with
  | true => simp [content1Step, classAdd_of_mem (hasClass_classAdd_self l "bloom-content1")]
  | false => simp [content1Step, classRemove_of_not_mem (hasClass_classRemove_self l "bloom-content1")]

/-- `shouldNormallyShowEditable` only consults the four content-marker
classes, so any class change that preserves them preserves the decision. -/
theorem shouldShow_congr (lang c : String) (D : List String) (l l2 : List String)
    (h2 : hasClass l2 "bloom-content2" = hasClass l "bloom-content2")
    (h3 : hasClass l2 "bloom-content3" = hasClass l "bloom-content3")
    (hn1 : hasClass l2 "bloom-contentNational1" = hasClass l "bloom-contentNational1")
    (hn2 : hasClass l2 "bloom-contentNational2" = hasClass l "bloom-contentNational2") :
    shouldNormallyShowEditable lang D c l2 = shouldNormallyShowEditable lang D c l := by
  unfold shouldNormallyShowEditable
  rw [h2, h3, hn1, hn2]

/-- The class update of `updateEditable` does not change the four
content-marker classes nor `bloom-editable`. -/
theorem hasClass_update_ne (s v : Bool) (l : List String) {t : String}
    (h1 : t ≠ "bloom-visibility-code-on") (h2 : t ≠ "bloom-visibility-code-off")
    (h3 : t ≠ "bloom-content1") :
    hasClass (content1Step v (visStep s l)) t = hasClass l t := by
  rw [hasClass_content1Step_ne v _ h3, hasClass_visStep_ne s _ h1 h2]

/-- `updateEditable` is idempotent. -/
theorem updateEditable_idem (c : String) (D : List String) (e : Editable) :
    updateEditable c D (updateEditable c D e) = updateEditable c D e := by
  by_cases he : hasClass e.classes "bloom-editable" = false
  · unfold updateEditable
    simp [he]
  · have he' : hasClass e.classes "bloom-editable" = true := by
      cases h : hasClass e.classes "bloom-editable" <;> simp_all
    have hinner : updateEditable c D e =
        Editable.mk e.lang (content1Step (decide (e.lang = some c))
          (visStep (shouldNormallyShowEditable (e.lang.getD "") D c e.classes) e.classes)) := by
      unfold updateEditable
      simp [he']
    rw [hinner]
    have hed : hasClass (content1Step (decide (e.lang = some c))
        (visStep (shouldNormallyShowEditable (e.lang.getD "") D c e.classes) e.classes))
        "bloom-editable" = true := by
      rw [hasClass_update_ne _ _ _ (by decide) (by decide) (by decide)]
      exact he'
    have hshow : shouldNormallyShowEditable (e.lang.getD "") D c
        (content1Step (decide (e.lang = some c))
          (visStep (shouldNormallyShowEditable (e.lang.getD "") D c e.classes) e.classes))
        = shouldNormallyShowEditable (e.lang.getD "") D c e.classes := by
      apply shouldShow_congr
      all_goals rw [hasClass_update_ne _ _ _ (by decide) (by decide) (by decide)]
    unfold updateEditable
    simp only [hed, Bool.true_eq_false, if_false, hshow]
    simp only [Option.getD, visStep_after, content1Step_idem]

/-- C8: rewriting with the same active language twice yields exactly the
same class assignment as rewriting once. -/
theorem c8_visibility_rewrite_idempotent (activeLanguageCode : String)
    (doc : List TranslationGroup) :
    updateDivVisibilityByLangCode activeLanguageCode
        (updateDivVisibilityByLangCode activeLanguageCode doc)
      = updateDivVisibilityByLangCode activeLanguageCode doc := by
  unfold updateDivVisibilityByLangCode
  by_cases hc : activeLanguageCode = ""
  · simp [hc]
  · simp only [hc, if_false]
    rw [List.map_map]
    apply List.map_congr_left
    intro g _
    show updateGroup activeLanguageCode (updateGroup activeLanguageCode g) = updateGroup activeLanguageCode g
    unfold updateGroup
    simp only [List.map_map]
    apply congrArg
    apply List.map_congr_left
    intro e _
    exact updateEditable_idem activeLanguageCode _ e

/-- C9: each call to the duration accumulators leaves the counter unchanged
or adds the duration, and (under JS comparison, where any comparison with
NaN is false) the counter never decreases, for arbitrary durations
including negative, zero and NaN. -/
theorem c9_duration_monotone (total duration : JsNum) :
    ((storeAudioAnalytics total duration = total ∨
        storeAudioAnalytics total duration = jsAdd total duration) ∧
      jsLt (storeAudioAnalytics total duration) total = false) ∧
    ((storeVideoAnalytics total duration = total ∨
        storeVideoAnalytics total duration = jsAdd total duration) ∧
      jsLt (storeVideoAnalytics total duration) total = false) := by
  have hself : ∀ x : JsNum, jsLt x x = false := by
    intro x
    cases x with
    | nan => rfl
    | val a => simp [jsLt]
  have haddq : ∀ (x : JsNum) (q : ℚ), ¬q < 1 / 1000 → jsLt (jsAdd x (JsNum.val q)) x = false := by
    intro x q hq
    cases x with
    | nan => rfl
    | val a =>
      simp only [jsAdd, jsLt, decide_eq_false_iff_not]
      have hq2 : 1 / 1000 ≤ q := not_lt.mp hq
      intro hlt
      linarith
  have haddnan : ∀ x : JsNum, jsLt (jsAdd x JsNum.nan) x = false := by
    intro x
    cases x <;> rfl
  constructor
  · cases duration with
    | nan =>
      have hkeep : storeAudioAnalytics total JsNum.nan = total := by
        unfold storeAudioAnalytics
        simp [jsIsNaN]
      rw [hkeep]
      exact ⟨Or.inl rfl, hself total⟩
    | val q =>
      by_cases hq : q < 1 / 1000
      · have hkeep : storeAudioAnalytics total (JsNum.val q) = total := by
          unfold storeAudioAnalytics
          rw [if_pos]
          simp only [jsLt, jsIsNaN, Bool.or_eq_true, decide_eq_true_eq]
          left
          linarith
        rw [hkeep]
        exact ⟨Or.inl rfl, hself total⟩
      · have hstep : storeAudioAnalytics total (JsNum.val q) = jsAdd total (JsNum.val q) := by
          unfold storeAudioAnalytics
          rw [if_neg]
          simp only [jsLt, jsIsNaN, Bool.or_eq_true, decide_eq_true_eq]
          rintro (h | h)
          · exact hq (by linarith)
          · exact Bool.noConfusion h
        rw [hstep]
        exact ⟨Or.inr rfl, haddq total q hq⟩
  · cases duration with
    | nan =>
      have hstep : storeVideoAnalytics total JsNum.nan = jsAdd total JsNum.nan := by
        unfold storeVideoAnalytics
        rw [if_neg]
        simp [jsLt]
      rw [hstep]
      exact ⟨Or.inr rfl, haddnan total⟩
    | val q =>
      by_cases hq : q < 1 / 1000
      · have hkeep : storeVideoAnalytics total (JsNum.val q) = total := by
          unfold storeVideoAnalytics
          rw [if_pos]
          simp only [jsLt, decide_eq_true_eq]
          linarith
        rw [hkeep]
        exact ⟨Or.inl rfl, hself total⟩
      · have hstep : storeVideoAnalytics total (JsNum.val q) = jsAdd total (JsNum.val q) := by
          unfold storeVideoAnalytics
          rw [if_neg]
          simp only [jsLt, decide_eq_true_eq]
          intro h
          exact hq (by linarith)
        rw [hstep]
        exact ⟨Or.inr rfl, haddq total q hq⟩

/-- Position lookup in the slide list built by `renderSlidesAux`. -/
theorem renderSlidesAux_get (styleRules : String) (idx : Int) :
    ∀ (pages : List String) (i0 : Int) (j : Nat) (p : String),
      pages.get? j = some p →
      (renderSlidesAux styleRules idx i0 pages).get? j
        = some (if (i0 + j - idx).natAbs < 2 then some (styleRules, p) else none) := by
  intro pages
  induction pages with
  | nil =>
    intro i0 j p h
    simp at h
  | cons a t ih =>
    intro i0 j p h
    cases j with
    | zero =>
      rw [List.get?_cons_zero] at h
      injection h with h
      subst h
      simp [renderSlidesAux]
    | succ k =>
      rw [List.get?_cons_succ] at h
      have hr := ih (i0 + 1) k p h
      show (((if (i0 + (0 : Nat) - idx).natAbs < 2 then some (styleRules, a) else none)) ::
          renderSlidesAux styleRules idx (i0 + 1) t).get? (k + 1) = _
      rw [List.get?_cons_succ, hr]
      have harith : i0 + 1 + (k : Int) - idx = i0 + ((k : Int) + 1) - idx := by ring
      rw [harith]
      push_cast
      ring_nf

/-- C7: while loading or failed no page content is rendered; otherwise the
slide at position `j` holds the stored markup (with the scoped style rules)
exactly when `|j - currentSwiperIndex| < 2` and is the empty placeholder
otherwise, and the same holds after any change of the current index. -/
theorem c7_render_window (s : PlayerState) :
    (s.isLoading = true → renderCore s = RenderResult.loading) ∧
    (s.isLoading = false → s.loadFailed = true →
      renderCore s = RenderResult.failed s.loadErrorHtml) ∧
    (s.isLoading = false → s.loadFailed = false →
      renderCore s = RenderResult.carousel (renderSlides s)) ∧
    (∀ (j : Nat) (p : String), s.pages.get? j = some p →
      (renderSlides s).get? j
        = some (if ((j : Int) - (s.currentSwiperIndex : Int)).natAbs < 2
            then some (s.styleRules, p) else none)) ∧
    (∀ (n : Nat) (j : Nat) (p : String), s.pages.get? j = some p →
      (renderSlides (setIndexState s n)).get? j
        = some (if ((j : Int) - (n : Int)).natAbs < 2 then some (s.styleRules, p) else none)) := by
  refine ⟨?_, ?_, ?_, ?_, ?_⟩
  · intro h
    simp [renderCore, h]
  · intro h1 h2
    simp [renderCore, h1, h2]
  · intro h1 h2
    simp [renderCore, h1, h2]
  · intro j p h
    have := renderSlidesAux_get s.styleRules (s.currentSwiperIndex : Int) s.pages 0 j p h
    simpa [renderSlides] using this
  · intro n j p h
    have := renderSlidesAux_get s.styleRules (n : Int) s.pages 0 j p h
    simpa [renderSlides, setIndexState] using this

/-- Witness for C7 on a four-page state with current index 2: the slide at
position 0 is the empty placeholder and the slide at position 1 carries the
page markup. -/
theorem c7_render_window_witness :
    (renderSlides (PlayerState.mk ["p0", "p1", "p2", "p3"] "st" false false "" 2)).get? 0
        = some none ∧
    (renderSlides (PlayerState.mk ["p0", "p1", "p2", "p3"] "st" false false "" 2)).get? 1
        = some (some ("st", "p1")) ∧
    renderCore (PlayerState.mk ["p0", "p1", "p2", "p3"] "st" false false "" 2)
        = RenderResult.carousel (renderSlides (PlayerState.mk ["p0", "p1", "p2", "p3"] "st" false false "" 2)) := by
  have h := c7_render_window (PlayerState.mk ["p0", "p1", "p2", "p3"] "st" false false "" 2)
  refine ⟨?_, ?_, h.2.2.1 rfl rfl⟩
  · exact (h.2.2.2.1 0 "p0" rfl).trans (by decide)
  · exact (h.2.2.2.1 1 "p1" rfl).trans (by decide)

/-!
Lemmas about prefixes, occurrences and substring containment.
-/

theorem isPfx_append_self (p r : List Char) : isPfx p (p ++ r) = true := by
  induction p with
  | nil => rfl
  | cons a as ih => simp [isPfx, ih]

theorem isPfx_mono_append : ∀ {p l : List Char} (r : List Char),
    isPfx p l = true → isPfx p (l ++ r) = true := by
  intro p
  induction p with
  | nil => intro l r _; rfl
  | cons a as ih =>
    intro l r h
    cases l with
    | nil => simp [isPfx] at h
    | cons b bs =>
      simp only [isPfx, List.cons_append] at h ⊢
      by_cases hab : a = b
      · simp only [hab, if_true] at h ⊢
        exact ih r h
      · simp [hab] at h
  
theorem isPfx_length_le : ∀ {p l : List Char},
    isPfx p l = true → p.length ≤ l.length := by
  intro p
  induction p with
  | nil => intro l _; simp
  | cons a as ih =>
    intro l h
    cases l with
    | nil => simp [isPfx] at h
    | cons b bs =>
      by_cases hab : a = b
      · simp only [isPfx, hab, if_true] at h
        simpa using ih h
      · simp [isPfx, hab] at h

theorem firstIdx_le_length : ∀ (l : List Char) {pat : List Char} {i : Nat},
    firstIdxChars pat l = some i → i ≤ l.length := by
  intro l
  induction l with
  | nil =>
    intro pat i h
    unfold firstIdxChars at h
    by_cases hp : isPfx pat ([] : List Char) = true <;> simp [hp] at h
    omega
  | cons c t ih =>
    intro pat i h
    unfold firstIdxChars at h
    by_cases hp : isPfx pat (c :: t) = true
    · simp [hp] at h
      omega
    · simp [hp] at h
      obtain ⟨j, hj, hij⟩ := h
      have := ih hj
      simp
      omega

theorem firstIdx_spec : ∀ (l : List Char) {pat : List Char} {i : Nat},
    firstIdxChars pat l = some i → isPfx pat (l.drop i) = true := by
  intro l
  induction l with
  | nil =>
    intro pat i h
    unfold firstIdxChars at h
    by_cases hp : isPfx pat ([] : List Char) = true <;> simp [hp] at h
    simp [← h, hp]
  | cons c t ih =>
    intro pat i h
    unfold firstIdxChars at h
    by_cases hp : isPfx pat (c :: t) = true
    · simp [hp] at h
      simp [← h, hp]
    · simp [hp] at h
      obtain ⟨j, hj, hij⟩ := h
      subst hij
      simpa using ih hj

theorem firstIdx_isSome_of_at : ∀ (l : List Char) (pat : List Char) (i : Nat),
    isPfx pat (l.drop i) = true → (firstIdxChars pat l).isSome = true := by
  intro l
  induction l with
  | nil =>
    intro pat i h
    simp only [List.drop_nil] at h
    unfold firstIdxChars
    simp [h]
  | cons c t ih =>
    intro pat i h
    unfold firstIdxChars
    by_cases hp : isPfx pat (c :: t) = true
    · simp [hp]
    · simp only [hp, if_false]
      cases i with
      | zero => simp at h; exact absurd h hp
      | succ i2 =>
        simp only [List.drop_succ_cons] at h
        have := ih pat i2 h
        simpa using this

theorem strData_append (a b : String) : (a ++ b).toList = a.toList ++ b.toList := by
  cases a
  cases b
  rfl

theorem strContains_append_left (a b pat : String) (h : strContainsSub a pat = true) :
    strContainsSub (a ++ b) pat = true := by
  unfold strContainsSub at h ⊢
  rw [strData_append]
  obtain ⟨i, hi⟩ := Option.isSome_iff_exists.mp h
  have hocc := firstIdx_spec a.toList hi
  have hle : i ≤ a.toList.length := firstIdx_le_length a.toList hi
  apply firstIdx_isSome_of_at _ _ i
  rw [List.drop_append_of_le_length hle]
  exact isPfx_mono_append _ hocc

theorem strContains_mid (a pat c : String) :
    strContainsSub (a ++ (pat ++ c)) pat = true := by
  unfold strContainsSub
  rw [strData_append, strData_append]
  apply firstIdx_isSome_of_at _ _ a.toList.length
  rw [List.drop_left]
  exact isPfx_append_self _ _

theorem strAppend_assoc (a b c : String) : (a ++ b) ++ c = a ++ (b ++ c) := by
  cases a with
  | mk x =>
    cases b with
    | mk y =>
      cases c with
      | mk z =>
        show String.mk ((x ++ y) ++ z) = String.mk (x ++ (y ++ z))
        rw [List.append_assoc]

/-- C3: the loading-error handler always moves to the failed state; with a
`file://` request URL or a message containing `404` it stores the
book-not-found markup, which contains `was not found` and the HTML-encoded
request URL; for every other error it stores the generic markup containing
the raw message. -/
theorem c3_loading_error (e : AxiosErrorInfo) :
    ((handleLoadingError e).isLoading = false ∧ (handleLoadingError e).loadFailed = true) ∧
    (∀ u : String, e.configUrl = some u →
      (jsStartsWith u "file://" = true ∨ strContainsSub e.message "404" = true) →
      (handleLoadingError e).loadErrorHtml
        = "<p>This book (or some part of it) was not found.<p>" ++
            "<p class='errorDetails'>" ++ htmlEncode u ++ "</p>" ∧
      strContainsSub (handleLoadingError e).loadErrorHtml "was not found" = true ∧
      strContainsSub (handleLoadingError e).loadErrorHtml (htmlEncode u) = true) ∧
    (e.configUrl = none → strContainsSub e.message "404" = true →
      (handleLoadingError e).loadErrorHtml
        = "<p>This book (or some part of it) was not found.<p>") ∧
    ((∀ u : String, e.configUrl = some u → jsStartsWith u "file://" = false) →
      strContainsSub e.message "404" = false →
      (handleLoadingError e).loadErrorHtml
        = "<p>There was a problem displaying this book: " ++ e.message ++ "<p>" ∧
      strContainsSub (handleLoadingError e).loadErrorHtml e.message = true) := by
  refine ⟨⟨rfl, rfl⟩, ?_, ?_, ?_⟩
  · intro u hu hcase
    have hcond : ((match e.configUrl with
        | some u2 => jsStartsWith u2 "file://"
        | none => false) || strContainsSub e.message "404") = true := by
      rw [hu]
      rcases hcase with h | h <;> simp [h]
    have hmsg : (handleLoadingError e).loadErrorHtml
        = "<p>This book (or some part of it) was not found.<p>" ++
            "<p class='errorDetails'>" ++ htmlEncode u ++ "</p>" := by
      unfold handleLoadingError
      rw [hu] at hcond
      simp only [hu, hcond, if_true]
    refine ⟨hmsg, ?_, ?_⟩
    · rw [hmsg]
      apply strContains_append_left
      apply strContains_append_left
      apply strContains_append_left
      decide
    · rw [hmsg]
      rw [strAppend_assoc ("<p>This book (or some part of it) was not found.<p>" ++ "<p class='errorDetails'>") (htmlEncode u) "</p>"]
      exact strContains_mid _ _ _
  · intro hu h404
    unfold handleLoadingError
    rw [hu]
    simp [h404]
  · intro hfile h404
    have hcond : (match e.configUrl with
        | some u2 => jsStartsWith u2 "file://"
        | none => false) = false := by
      cases hcu : e.configUrl with
      | none => rfl
      | some u => exact hfile u hcu
    have hmsg : (handleLoadingError e).loadErrorHtml
        = "<p>There was a problem displaying this book: " ++ e.message ++ "<p>" := by
      unfold handleLoadingError
      simp [hcond, h404]
    refine ⟨hmsg, ?_⟩
    rw [hmsg]
    rw [strAppend_assoc "<p>There was a problem displaying this book: " e.message "<p>"]
    exact strContains_mid _ _ _

/-- Witness for C3 on a concrete 404 error with a request URL. -/
theorem c3_loading_error_witness :
    (handleLoadingError (AxiosErrorInfo.mk "Request failed with status code 404" (some "https://h/B.htm"))).loadErrorHtml
      = "<p>This book (or some part of it) was not found.<p>" ++
          ("<p class='errorDetails'>" ++
            (htmlEncode "https://h/B.htm" ++ "</p>")) := by
  have h := c3_loading_error (AxiosErrorInfo.mk "Request failed with status code 404" (some "https://h/B.htm"))
  exact (h.2.1 "https://h/B.htm" rfl (Or.inr (by decide))).1

/-- JS `replace` rewrites only the occurrence found: when the pattern first
occurs exactly where `base` ends, the result swaps the suffix. -/
theorem replaceFirst_at_suffix (base pat rep : String)
    (h : firstIdxChars pat.toList (base ++ pat).toList = some base.toList.length) :
    replaceFirstStr (base ++ pat) pat rep = base ++ rep := by
  have h2 : firstIdxChars pat.toList (base.toList ++ pat.toList) = some base.toList.length := by
    rw [← strData_append]
    exact h
  unfold replaceFirstStr replaceFirstChars
  rw [strData_append, h2]
  show String.mk (List.take base.toList.length (base.toList ++ pat.toList) ++ rep.toList ++
      List.drop (base.toList.length + pat.toList.length) (base.toList ++ pat.toList)) = base ++ rep
  rw [List.take_left, List.drop_append, List.drop_length, List.append_nil]
  cases base with
  | mk x =>
    cases rep with
    | mk y => rfl

/-- C5: when the page carries a size class, the returned landscape flag is
`showLandscape` for rotatable books and otherwise whether the existing size
class ends in `Landscape`; the existing size class is replaced by the
desired device class (the original class with its orientation suffix
swapped when `useOriginalPageSize`, whose swap is the suffix swap whenever
the pattern's first occurrence is the suffix); and the Device16x9Portrait
scenario returns `true` with class `Device16x9Landscape`. -/
theorem c5_setPageSizeClass :
    (∀ (classes : List String) (bookCanRotate showLandscape useOriginalPageSize : Bool)
        (originalPageClass : String),
      getPageSizeClass classes ≠ "" →
      ((setPageSizeClass classes bookCanRotate showLandscape useOriginalPageSize originalPageClass).1
          = (if bookCanRotate then showLandscape
              else jsEndsWith (getPageSizeClass classes) "Landscape") ∧
        (getPageSizeClass classes
            ≠ desiredSizeClass (if bookCanRotate then showLandscape
                else jsEndsWith (getPageSizeClass classes) "Landscape") useOriginalPageSize originalPageClass →
          hasClass (setPageSizeClass classes bookCanRotate showLandscape useOriginalPageSize originalPageClass).2
              (desiredSizeClass (if bookCanRotate then showLandscape
                else jsEndsWith (getPageSizeClass classes) "Landscape") useOriginalPageSize originalPageClass) = true ∧
          hasClass (setPageSizeClass classes bookCanRotate showLandscape useOriginalPageSize originalPageClass).2
              (getPageSizeClass classes) = false) ∧
        (getPageSizeClass classes
            = desiredSizeClass (if bookCanRotate then showLandscape
                else jsEndsWith (getPageSizeClass classes) "Landscape") useOriginalPageSize originalPageClass →
          (setPageSizeClass classes bookCanRotate showLandscape useOriginalPageSize originalPageClass).2
            = classes))) ∧
    (∀ (base pat rep : String),
      firstIdxChars pat.toList (base ++ pat).toList = some base.toList.length →
      replaceFirstStr (base ++ pat) pat rep = base ++ rep) ∧
    (setPageSizeClass ["Device16x9Portrait"] true true false "Device16x9Portrait"
      = (true, ["Device16x9Landscape"])) := by
  refine ⟨?_, replaceFirst_at_suffix, by decide⟩
  intro classes cr sl uo orig h
  unfold setPageSizeClass
  simp only [h, if_false]
  by_cases hne : getPageSizeClass classes
      ≠ desiredSizeClass (if cr then sl else jsEndsWith (getPageSizeClass classes) "Landscape") uo orig
  · rw [if_pos hne]
    refine ⟨rfl, fun _ => ⟨hasClass_classAdd_self _ _, ?_⟩, fun heq => absurd heq hne⟩
    show hasClass (classAdd (classRemove classes (getPageSizeClass classes))
        (desiredSizeClass (if cr then sl else jsEndsWith (getPageSizeClass classes) "Landscape") uo orig))
        (getPageSizeClass classes) = false
    rw [hasClass_classAdd_ne _ hne]
    exact hasClass_classRemove_self _ _
  · rw [if_neg hne]
    exact ⟨rfl, fun hne2 => absurd hne2 hne, fun _ => rfl⟩

/-- Witness for C5: a non-rotatable `A5Portrait` page with
`useOriginalPageSize` keeps its class (the desired class already matches),
and swapping the suffix of `Device16x9Portrait` by the first-occurrence
`replace` gives `Device16x9Landscape`. -/
theorem c5_setPageSizeClass_witness :
    ((setPageSizeClass ["A5Portrait"] false false true "A5Portrait").1
        = (if false then false else jsEndsWith (getPageSizeClass ["A5Portrait"]) "Landscape")) ∧
    replaceFirstStr ("Device16x9" ++ "Portrait") "Portrait" "Landscape" = "Device16x9" ++ "Landscape" := by
  constructor
  · exact (c5_setPageSizeClass.1 ["A5Portrait"] false false true "A5Portrait" (by decide)).1
  · exact c5_setPageSizeClass.2.1 "Device16x9" "Portrait" "Landscape" (by decide)

/-- C6: the URL-rewriting pass is the per-element composition of the `src`
pass and the background-image pass; every element with a `src` attribute
ends with it equal to the folder-absolute URL; and every element whose
style matches the background-image regex gets the declaration spliced out
of its style, the folder-absolute URL in `data-background`, and the
`swiper-lazy` class. -/
theorem c6_fix_relative_urls :
    (∀ (pfx : String) (page : List PageElement),
      fixRelativeUrls pfx page = page.map (fun e => fixBg pfx (fixSrc pfx e))) ∧
    (∀ (pfx : String) (e : PageElement) (s : String),
      e.src = some s → (fixBg pfx (fixSrc pfx e)).src = some (fullUrl pfx s)) ∧
    (∀ (pfx : String) (e : PageElement) (st : String) (i n : Nat) (g : List Char),
      e.style = some st → bgScan st.toList = some (i, n, g) →
      (fixBg pfx (fixSrc pfx e)).style
          = some (String.mk (st.toList.take i ++ st.toList.drop (i + n))) ∧
      (fixBg pfx (fixSrc pfx e)).dataBackground = some (fullUrl pfx (String.mk g)) ∧
      hasClass (fixBg pfx (fixSrc pfx e)).classes "swiper-lazy" = true) := by
  refine ⟨?_, ?_, ?_⟩
  · intro pfx page
    unfold fixRelativeUrls
    rw [List.map_map]
    rfl
  · intro pfx e s hs
    unfold fixSrc
    rw [hs]
    unfold fixBg
    cases hst : e.style with
    | none => simp [hst]
    | some st =>
      cases hscan : bgScan st.toList with
      | none =>
        simp only [String.toList] at hscan
        simp [hst, hscan]
      | some p =>
        simp only [String.toList] at hscan
        simp [hst, hscan]
  · intro pfx e st i n g hst hscan
    unfold fixSrc fixBg
    simp only [String.toList] at hscan
    cases hsrc : e.src with
    | none =>
      simp [hst, hscan, hasClass_classAdd_self]
    | some s =>
      simp [hst, hscan, hasClass_classAdd_self]

/-- Witness for C6 on a concrete element carrying both a `src` attribute and
a background-image style declaration. -/
theorem c6_fix_relative_urls_witness :
    (fixBg "P" (fixSrc "P"
        (PageElement.mk (some "img.png") (some "background-image:url('AOR_10AW.png')") [] none))).src
      = some (fullUrl "P" "img.png") ∧
    (fixBg "P" (fixSrc "P"
        (PageElement.mk (some "img.png") (some "background-image:url('AOR_10AW.png')") [] none))).dataBackground
      = some (fullUrl "P" (String.mk "AOR_10AW.png".toList)) := by
  constructor
  · exact c6_fix_relative_urls.2.1 "P"
      (PageElement.mk (some "img.png") (some "background-image:url('AOR_10AW.png')") [] none)
      "img.png" rfl
  · exact (c6_fix_relative_urls.2.2 "P"
      (PageElement.mk (some "img.png") (some "background-image:url('AOR_10AW.png')") [] none)
      "background-image:url('AOR_10AW.png')" 0 36 "AOR_10AW.png".toList rfl (by decide)).2.1

/-- The link loop splits the resolved links into fetched non-font sheets
(in document order) and the diverted `fonts.css` URLs (in document order). -/
theorem collectLinks_spec (pfx : String) (fetch : String → Option String) :
    ∀ links : List String,
      (collectLinks pfx fetch links).1
          = ((links.map (fullUrl pfx)).filter (fun h => !(jsEndsWith h "/fonts.css"))).map fetch ∧
      (collectLinks pfx fetch links).2
          = (links.map (fullUrl pfx)).filter (fun h => jsEndsWith h "/fonts.css") := by
  intro links
  induction links with
  | nil => exact ⟨rfl, rfl⟩
  | cons href rest ih =>
    unfold collectLinks
    by_cases hf : jsEndsWith (fullUrl pfx href) "/fonts.css" = true
    · simp [hf, ih.1, ih.2]
    · simp only [Bool.not_eq_true] at hf
      simp [hf, ih.1, ih.2]

/-- C4: with no legacy-quiz stylesheet, the combined stylesheet string is
the concatenation of the embedded style blocks in document order followed
by the data of the successfully fetched linked stylesheets in document
order, linked sheets resolving to a URL ending in `/fonts.css` excluded
(they are instead rewritten by `makeFontStylesheet` and installed in the
head) and failed fetches silently omitted; in the fonts.css/custom.css
scenario the combined string has custom.css's content and not fonts.css's,
which appears (rewritten) in the separate font stylesheet. -/
theorem c4_assemble_style_sheets :
    (∀ (pfx : String) (fetch : String → Option String) (embedded links : List String),
      (assembleStyleSheets pfx fetch embedded links none).combined
        = String.join embedded ++
            String.join (((links.map (fullUrl pfx)).filter
              (fun h => !(jsEndsWith h "/fonts.css"))).filterMap fetch) ∧
      (assembleStyleSheets pfx fetch embedded links none).fontSheets
        = ((links.map (fullUrl pfx)).filter (fun h => jsEndsWith h "/fonts.css")).filterMap
            (fun h => (fetch h).map (makeFontStylesheet h)) ∧
      (assembleStyleSheets pfx fetch embedded links none).isLoading = false) ∧
    (assembleStyleSheets "https://h/B"
        (fun h => if h = "https://h/B/custom.css" then some "custom-css-content"
                  else if h = "https://h/B/fonts.css" then some "src:url(Andika.ttf)" else none)
        ["embedded-style"] ["fonts.css", "custom.css"] none
      = AssembleResult.mk "embedded-stylecustom-css-content"
          ["src:url('https://h/B/Andika.ttf')"] false) := by
  refine ⟨?_, by decide⟩
  intro pfx fetch embedded links
  unfold assembleStyleSheets
  have h1 := (collectLinks_spec pfx fetch links).1
  have h2 := (collectLinks_spec pfx fetch links).2
  refine ⟨?_, ?_, rfl⟩
  · show String.join embedded ++
        String.join (((collectLinks pfx fetch links).1 ++ []).filterMap id) = _
    rw [List.append_nil, h1, List.filterMap_map]
    simp [Function.comp]
  · show (collectLinks pfx fetch links).2.filterMap
        (fun h => (fetch h).map (makeFontStylesheet h)) = _
    rw [h2]

/-- Witness for C4 (the universally quantified part at the scenario's
inputs). -/
theorem c4_assemble_style_sheets_witness :
    (assembleStyleSheets "https://h/B"
        (fun h => if h = "https://h/B/custom.css" then some "custom-css-content"
                  else if h = "https://h/B/fonts.css" then some "src:url(Andika.ttf)" else none)
        ["embedded-style"] ["fonts.css", "custom.css"] none).isLoading = false :=
  (c4_assemble_style_sheets.1 "https://h/B"
      (fun h => if h = "https://h/B/custom.css" then some "custom-css-content"
                else if h = "https://h/B/fonts.css" then some "src:url(Andika.ttf)" else none)
      ["embedded-style"] ["fonts.css", "custom.css"]).2.2

/-!
Lemmas about suffixes and last occurrences, for the URL derivations.
-/

theorem listEndsWith_iff (s p : List Char) :
    listEndsWith s p = true ↔ (p.length ≤ s.length ∧ s.drop (s.length - p.length) = p) := by
  unfold listEndsWith
  by_cases h : p.length ≤ s.length <;> simp [h]

theorem dropGetLastEq (l : List Char) : ∀ n : Nat, n < l.length → (l.drop n).getLast? = l.getLast? := by
  induction l with
  | nil => intro n h; simp at h
  | cons c t ih =>
    intro n h
    cases n with
    | zero => rfl
    | succ m =>
      simp only [List.drop_succ_cons]
      have hm : m < t.length := by
        simp at h
        omega
      rw [ih m hm]
      cases t with
      | nil => simp at hm
      | cons x t2 => rw [List.getLast?_cons_cons]

theorem endsWith_getLast {l p : List Char} (hp : p ≠ []) (h : listEndsWith l p = true) :
    l.getLast? = p.getLast? := by
  rw [listEndsWith_iff] at h
  obtain ⟨hlen, hdrop⟩ := h
  have hplen : 1 ≤ p.length := by
    cases p with
    | nil => exact absurd rfl hp
    | cons a b => simp
  rw [← hdrop]
  exact (dropGetLastEq l (l.length - p.length) (by omega)).symm

theorem endsWith_ne_last {l q : List Char} {c d : Char}
    (hc : l.getLast? = some c) (hd : q.getLast? = some d) (hne : c ≠ d) :
    listEndsWith l q = false := by
  cases h : listEndsWith l q with
  | false => rfl
  | true =>
    have hq : q ≠ [] := by
      intro habs
      rw [habs] at hd
      simp at hd
    have := endsWith_getLast hq h
    rw [hc, hd] at this
    injection this with this
    exact absurd this hne

theorem lastIdx_last_char : ∀ (l : List Char) (c : Char),
    l.getLast? = some c → lastIdxChars [c] l = some (l.length - 1) := by
  intro l
  induction l with
  | nil => intro c h; simp at h
  | cons a t ih =>
    intro c h
    cases t with
    | nil =>
      simp at h
      subst h
      simp [lastIdxChars, isPfx]
    | cons x t2 =>
      rw [List.getLast?_cons_cons] at h
      have := ih c h
      unfold lastIdxChars
      rw [this]
      simp

theorem lastIdx_spec : ∀ (l : List Char) {pat : List Char} {j : Nat},
    lastIdxChars pat l = some j → isPfx pat (l.drop j) = true := by
  intro l
  induction l with
  | nil =>
    intro pat j h
    unfold lastIdxChars at h
    by_cases hp : isPfx pat ([] : List Char) = true <;> simp [hp] at h
    simp [← h, hp]
  | cons c t ih =>
    intro pat j h
    unfold lastIdxChars at h
    cases ht : lastIdxChars pat t with
    | some j2 =>
      rw [ht] at h
      injection h with h
      subst h
      simpa using ih ht
    | none =>
      rw [ht] at h
      by_cases hp : isPfx pat (c :: t) = true
      · simp [hp] at h
        simp [← h, hp]
      · simp [hp] at h

theorem listEndsWith_of_drop (l : List Char) (m : Nat) (p : List Char)
    (h : listEndsWith (l.drop m) p = true) : listEndsWith l p = true := by
  rw [listEndsWith_iff] at h ⊢
  obtain ⟨hlen, hdrop⟩ := h
  rw [List.length_drop] at hlen hdrop
  by_cases hm : m ≤ l.length
  · rw [List.drop_drop] at hdrop
    have harith : m + (l.length - m - p.length) = l.length - p.length := by omega
    rw [harith] at hdrop
    exact ⟨by omega, hdrop⟩
  · have hzero : l.length - m = 0 := by omega
    rw [hzero] at hlen
    have hp : p = [] := List.length_eq_zero.mp (by omega)
    subst hp
    exact ⟨by omega, by simp⟩

theorem htm_suffix_false {l : List Char} {c : Char}
    (hc : l.getLast? = some c) (hne : c ≠ 'm') (m : Nat) :
    listEndsWith (l.drop m) ".htm".toList = false := by
  cases h : listEndsWith (l.drop m) ".htm".toList with
  | false => rfl
  | true =>
    exfalso
    have hlen : (".htm".toList).length ≤ (l.drop m).length := ((listEndsWith_iff _ _).mp h).1
    have hm : m < l.length := by
      rw [List.length_drop] at hlen
      simp at hlen
      omega
    have hlast : (l.drop m).getLast? = some 'm' := by
      have := endsWith_getLast (by decide) h
      rw [this]
      decide
    rw [dropGetLastEq l m hm, hc] at hlast
    injection hlast with hlast
    exact absurd hlast hne

/-- C2 counterexample: `a.htm` survives normalization and ends in `.htm`,
yet the derived markup URL is not the URL itself: the code keys on the
extracted filename (`substring(2)` when the URL has no slash), which here
is `htm`, so it appends `/htm.htm`. -/
theorem c2_book_url_counterexample :
    normalizeUrlSlashes "a.htm" = "a.htm" ∧
    jsEndsWith "a.htm" ".htm" = true ∧
    urlOfBookHtmlFile "a.htm" = "a.htm/htm.htm" ∧
    urlOfBookHtmlFile "a.htm" ≠ "a.htm" :=
  ⟨by decide, by decide, by decide, by decide⟩

/-- C2 (amended): the branch condition is that the extracted last path
segment ends in `.htm` (which implies the URL itself does); then the markup
URL is the URL and the folder is the URL up to the later of the last `/`
and the last `%2f`; otherwise the markup URL appends `/<segment>.htm` and
the folder is the URL itself. Scenario: `https://host/Book`. -/
theorem c2_book_url_resolution :
    (∀ u : String,
      (haveFullPath u = true →
        jsEndsWith u ".htm" = true ∧
        urlOfBookHtmlFile u = u ∧
        urlFolder u = strTakeInt u (max (jsIdx (lastIndexOfStr u "/")) (jsIdx (lastIndexOfStr u "%2f")))) ∧
      (haveFullPath u = false →
        urlOfBookHtmlFile u = u ++ "/" ++ deriveFilename u ++ ".htm" ∧
        urlFolder u = u)) ∧
    (preprocessUrl "https://host/Book/" = Except.ok "https://host/Book" ∧
      urlOfBookHtmlFile "https://host/Book" = "https://host/Book/Book.htm" ∧
      urlFolder "https://host/Book" = "https://host/Book") := by
  constructor
  · intro u
    constructor
    · intro h
      refine ⟨?_, ?_, ?_⟩
      · have hm : ∃ m, (deriveFilename u).toList = u.toList.drop m := by
          unfold deriveFilename
          by_cases hif : jsIdx (lastIndexOfStr u "/") > jsIdx (lastIndexOfStr u "%2f")
          · exact ⟨_, by rw [if_pos hif]; rfl⟩
          · exact ⟨_, by rw [if_neg hif]; rfl⟩
        obtain ⟨m, hm⟩ := hm
        unfold haveFullPath jsEndsWith at h
        rw [hm] at h
        unfold jsEndsWith
        exact listEndsWith_of_drop _ _ _ h
      · unfold urlOfBookHtmlFile
        rw [h]
        simp
      · unfold urlFolder
        rw [h]
        simp
    · intro h
      constructor
      · unfold urlOfBookHtmlFile
        rw [h]
        simp
      · unfold urlFolder
        rw [h]
        simp
  · exact ⟨rfl, by decide, by decide⟩

/-- Witness for C2 at a full `.htm` URL and at a folder URL. -/
theorem c2_book_url_resolution_witness :
    urlOfBookHtmlFile "https://host/Book/Book.htm" = "https://host/Book/Book.htm" ∧
    urlFolder "https://host/x" = "https://host/x" := by
  constructor
  · exact ((c2_book_url_resolution.1 "https://host/Book/Book.htm").1 (by decide)).2.1
  · exact ((c2_book_url_resolution.1 "https://host/x").2 (by decide)).2

theorem strAppend_slash_htm (v : String) : v ++ "/" ++ "" ++ ".htm" = v ++ "/.htm" := by
  calc v ++ "/" ++ "" ++ ".htm"
      = (v ++ "/") ++ ("" ++ ".htm") := strAppend_assoc (v ++ "/") "" ".htm"
    _ = (v ++ "/") ++ ".htm" := by rw [show ("" : String) ++ ".htm" = ".htm" from by decide]
    _ = v ++ ("/" ++ ".htm") := strAppend_assoc v "/" ".htm"
    _ = v ++ "/.htm" := by rw [show ("/" : String) ++ ".htm" = "/.htm" from by decide]

/-- C10: stripping is single-pass and case-sensitive. A URL ending in the
uppercase `%2F` is left untouched by normalization, is treated as a folder
URL, and the residue flows into the derived folder and markup URLs; a URL
ending in `//` keeps one trailing slash, its extracted filename is empty,
the folder URL keeps the trailing slash, and the markup URL ends in
`//.htm`. -/
theorem c10_normalization_case_sensitive :
    (∀ url : String, jsEndsWith url "%2F" = true →
      normalizeUrlSlashes url = url ∧
      haveFullPath url = false ∧
      urlFolder url = url ∧
      urlOfBookHtmlFile url = url ++ "/" ++ deriveFilename url ++ ".htm") ∧
    (∀ url : String, jsEndsWith url "//" = true →
      jsEndsWith (normalizeUrlSlashes url) "/" = true ∧
      deriveFilename (normalizeUrlSlashes url) = "" ∧
      urlFolder (normalizeUrlSlashes url) = normalizeUrlSlashes url ∧
      urlOfBookHtmlFile (normalizeUrlSlashes url) = normalizeUrlSlashes url ++ "/.htm") := by
  constructor
  · intro url h
    have hlast : url.toList.getLast? = some 'F' := by
      unfold jsEndsWith at h
      rw [endsWith_getLast (by decide) h]
      decide
    have hslash : jsEndsWith url "/" = false := by
      unfold jsEndsWith
      exact @endsWith_ne_last url.toList ("/".toList) 'F' '/' hlast (by decide) (by decide)
    have h2f : jsEndsWith url "%2f" = false := by
      unfold jsEndsWith
      exact @endsWith_ne_last url.toList ("%2f".toList) 'F' 'f' hlast (by decide) (by decide)
    have hnorm : normalizeUrlSlashes url = url := by
      unfold normalizeUrlSlashes
      simp [hslash, h2f]
    have hfp : haveFullPath url = false := by
      unfold haveFullPath deriveFilename jsEndsWith
      by_cases hif : jsIdx (lastIndexOfStr url "/") > jsIdx (lastIndexOfStr url "%2f")
      · rw [if_pos hif]
        exact htm_suffix_false hlast (by decide) _
      · rw [if_neg hif]
        exact htm_suffix_false hlast (by decide) _
    refine ⟨hnorm, hfp, ?_, ?_⟩
    · unfold urlFolder
      rw [hfp]
      simp
    · unfold urlOfBookHtmlFile
      rw [hfp]
      simp
  · intro url h
    unfold jsEndsWith at h
    obtain ⟨hlen2, hdrop2⟩ := (listEndsWith_iff _ _).mp h
    have hlen2n : 2 ≤ url.toList.length := by simpa using hlen2
    have hdrop2n : url.toList.drop (url.toList.length - 2) = "//".toList := by
      have e0 : url.toList.length - ("//".toList).length = url.toList.length - 2 := by
        rw [show (("//".toList : List Char)).length = 2 from by decide]
      rw [e0] at hdrop2
      exact hdrop2
    have hslash : jsEndsWith url "/" = true := by
      unfold jsEndsWith
      rw [listEndsWith_iff]
      have hl1 : (("/".toList : List Char)).length = 1 := by decide
      constructor
      · rw [hl1]
        omega
      · rw [hl1]
        have e1 : url.toList.length - 1 = url.toList.length - 2 + 1 := by omega
        rw [e1, ← List.drop_drop, hdrop2n]
        decide
    have hlen_eq : url.length = url.toList.length := rfl
    have hu1 : (strTakeInt url ((url.length : Int) - 1)).toList
        = url.toList.take (url.toList.length - 1) := by
      show url.toList.take (((url.length : Int) - 1)).toNat = _
      congr 1
      rw [hlen_eq]
      omega
    have htake_ends : listEndsWith (url.toList.take (url.toList.length - 1)) "/".toList = true := by
      rw [listEndsWith_iff]
      have hlentake : (url.toList.take (url.toList.length - 1)).length = url.toList.length - 1 := by
        rw [List.length_take]
        omega
      have hl1 : (("/".toList : List Char)).length = 1 := by decide
      constructor
      · rw [hlentake, hl1]
        omega
      · rw [hlentake, hl1]
        have e2 : url.toList.length - 1 - 1 = url.toList.length - 2 := by omega
        rw [e2, List.drop_take]
        have e3 : url.toList.length - 1 - (url.toList.length - 2) = 1 := by omega
        rw [e3, hdrop2n]
        decide
    have hu1ends : jsEndsWith (strTakeInt url ((url.length : Int) - 1)) "/" = true := by
      unfold jsEndsWith
      rw [hu1]
      exact htake_ends
    have hu1last : (strTakeInt url ((url.length : Int) - 1)).toList.getLast? = some '/' := by
      rw [hu1]
      rw [endsWith_getLast (by decide) htake_ends]
      decide
    have hu1no2f : jsEndsWith (strTakeInt url ((url.length : Int) - 1)) "%2f" = false := by
      unfold jsEndsWith
      exact @endsWith_ne_last (strTakeInt url ((url.length : Int) - 1)).toList ("%2f".toList)
        '/' 'f' hu1last (by decide) (by decide)
    have hnorm : normalizeUrlSlashes url = strTakeInt url ((url.length : Int) - 1) := by
      unfold normalizeUrlSlashes
      simp [hslash, hu1no2f]
    rw [hnorm]
    have hu1len : (strTakeInt url ((url.length : Int) - 1)).toList.length = url.toList.length - 1 := by
      rw [hu1, List.length_take]
      omega
    have hsi : lastIdxChars ("/".toList) (strTakeInt url ((url.length : Int) - 1)).toList
        = some (url.toList.length - 1 - 1) := by
      have h0 := lastIdx_last_char _ '/' hu1last
      rw [hu1len] at h0
      have hpat : ("/".toList : List Char) = ['/'] := by decide
      rw [hpat]
      exact h0
    have hsi_fact : lastIndexOfStr (strTakeInt url ((url.length : Int) - 1)) "/"
        = some (url.toList.length - 1 - 1) := hsi
    have hei_lt : jsIdx (lastIndexOfStr (strTakeInt url ((url.length : Int) - 1)) "%2f")
        < jsIdx (lastIndexOfStr (strTakeInt url ((url.length : Int) - 1)) "/") := by
      rw [hsi_fact]
      unfold lastIndexOfStr
      cases hE : lastIdxChars ("%2f".toList) (strTakeInt url ((url.length : Int) - 1)).toList with
      | none =>
        simp [jsIdx]
        omega
      | some j =>
        have hocc := lastIdx_spec _ hE
        have hlen3 := isPfx_length_le hocc
        rw [List.length_drop, hu1len] at hlen3
        have h3 : (("%2f".toList : List Char)).length = 3 := by decide
        rw [h3] at hlen3
        simp [jsIdx]
        omega
    have hfile : deriveFilename (strTakeInt url ((url.length : Int) - 1)) = "" := by
      unfold deriveFilename
      rw [if_pos hei_lt]
      rw [hsi_fact]
      show String.mk ((strTakeInt url ((url.length : Int) - 1)).toList.drop
          ((jsIdx (some (url.toList.length - 1 - 1)) + 1)).toNat) = ""
      have e4 : ((jsIdx (some (url.toList.length - 1 - 1)) + 1)).toNat = url.toList.length - 1 := by
        simp [jsIdx]
        omega
      rw [e4]
      have e5 : (strTakeInt url ((url.length : Int) - 1)).toList.drop (url.toList.length - 1) = [] := by
        apply List.drop_eq_nil_of_le
        rw [hu1len]
      rw [e5]
    have hfp : haveFullPath (strTakeInt url ((url.length : Int) - 1)) = false := by
      unfold haveFullPath
      rw [hfile]
      decide
    refine ⟨hu1ends, hfile, ?_, ?_⟩
    · unfold urlFolder
      rw [hfp]
      simp
    · unfold urlOfBookHtmlFile
      rw [hfp]
      simp only [Bool.false_eq_true, if_false]
      rw [hfile]
      exact strAppend_slash_htm _

/-- Witness for C10 at concrete URLs ending in `%2F` and in `//`. -/
theorem c10_normalization_case_sensitive_witness :
    normalizeUrlSlashes "https://host/Book%2F" = "https://host/Book%2F" ∧
    jsEndsWith (normalizeUrlSlashes "https://host/Book//") "/" = true := by
  constructor
  · exact (c10_normalization_case_sensitive.1 "https://host/Book%2F" (by decide)).1
  · exact (c10_normalization_case_sensitive.2 "https://host/Book//" (by decide)).1
